import Mathlib

/-!
Shallow embedding of the bipack codec (`bipack_sink.rs`, `bipack_source.rs`):
the smartint variable-length unsigned integer encoding, fixed-width
big-endian integer encodings, the slice-backed byte source, and the derived
decode operations.  Machine integers are modelled as `Nat` with explicit
`% 2 ^ w` at the places where the Rust code performs a narrowing cast or a
wrapping operation; fallible decoding returns an `Except` paired with the
updated source state (mirroring `&mut self` in Rust: the cursor survives a
failed read).
-/

namespace Bipack

/-- Errors of the decoder (`BipackError` in `bipack_source.rs`).
`BadEncoding` carries the byte sequence that failed UTF-8 validation (the
Rust code wraps it in a `FromUtf8Error`). -/
inductive BipackError where
  | NoDataError : BipackError
  | BadEncoding : List Nat → BipackError
deriving DecidableEq, Repr

/-- `V0LIMIT` in `bipack_sink.rs`: `1u64 << 6`. -/
def V0LIMIT : Nat := 1 <<< 6

/-- `V1LIMIT` in `bipack_sink.rs`: `1u64 << 14`. -/
def V1LIMIT : Nat := 1 <<< 14

/-- `V2LIMIT` in `bipack_sink.rs`: `1u64 << 22`. -/
def V2LIMIT : Nat := 1 <<< 22

/-- The sink primitive `put_u8` for the `Vec<u8>` sink: append one byte.
The `% 256` records that the argument has Rust type `u8`. -/
def put_u8 (b : Nat) : List Nat := [b % 256]

/-- `BipackSink::put_u16`: two bytes, most significant first (the loop in
the source fills the two-byte array from the last index down, shifting the
value right by 8 each step). -/
def put_u16 (v : Nat) : List Nat := [(v >>> 8) % 256, v % 256]

/-- `BipackSink::put_u32`: four bytes, most significant first. -/
def put_u32 (v : Nat) : List Nat :=
  [(v >>> 24) % 256, (v >>> 16) % 256, (v >>> 8) % 256, v % 256]

/-- `BipackSink::put_u64`: eight bytes, most significant first. -/
def put_u64 (v : Nat) : List Nat :=
  [(v >>> 56) % 256, (v >>> 48) % 256, (v >>> 40) % 256, (v >>> 32) % 256,
   (v >>> 24) % 256, (v >>> 16) % 256, (v >>> 8) % 256, v % 256]

/-- The `encode_seq` closure inside `BipackSink::put_unsigned`.  `none`
models the `panic!("first byte is too big (internal error)")` guard taken
when `bytes[0] > V0LIMIT`; otherwise the first chunk is tagged with the
2-bit type in the low bits and the remaining chunks are emitted verbatim
(each cast `as u8`, i.e. `% 256`). -/
def encode_seq (ty : Nat) (bytes : List Nat) : Option (List Nat) :=
  match bytes with
  | [] => some (put_u8 0)
  | b0 :: rest =>
    if b0 > V0LIMIT then none
    else some (put_u8 ((ty &&& 0x03) ||| (((b0 % 256) <<< 2) % 256)) ++
               rest.map (fun b => b % 256))

/-- `BipackSink::put_var_unsigned`: little-endian base-128 groups, 7 value
bits per byte, continuation flag `0x80` set on every byte but the last.
The source is a `loop`; each iteration emits one byte for the low 7 bits
and shifts the rest right by 7, stopping when the rest is zero. -/
def put_var_unsigned (rest : Nat) : List Nat :=
  if h : rest >>> 7 > 0 then
    put_u8 ((rest &&& 127) ||| 0x80) ++ put_var_unsigned (rest >>> 7)
  else
    put_u8 (rest &&& 127)
termination_by rest
decreasing_by
  simp only [Nat.shiftRight_eq_div_pow] at *
  norm_num at *
  omega

/-- `BipackSink::put_unsigned` with the `encode_seq` panic guard kept as
`Option`: `none` would mean the internal panic fired. -/
def put_unsigned_checked (value : Nat) : Option (List Nat) :=
  if value < V0LIMIT then encode_seq 0 [value]
  else if value < V1LIMIT then encode_seq 1 [value &&& 0x3F, value >>> 6]
  else if value < V2LIMIT then
    encode_seq 2 [value &&& 0x3F, value >>> 6, value >>> 14]
  else
    match encode_seq 3 [value &&& 0x3F, value >>> 6, value >>> 14] with
    | none => none
    | some bs => some (bs ++ put_var_unsigned (value >>> 22))

/-- `BipackSink::put_unsigned` as the byte sequence it appends; theorem
`C8_put_unsigned_no_panic` shows the panic guard of `encode_seq` is
unreachable, so this total function agrees with `put_unsigned_checked`. -/
def put_unsigned (value : Nat) : List Nat := (put_unsigned_checked value).getD []

/-- `BipackSink::put_signed`: sign split then `put_unsigned` of
`neg | (magnitude << 1)`; the shift is a wrapping `u64` shift, hence the
`% 2 ^ 64`.  (For `v = i64::MIN` the Rust negation `-val` itself overflows;
all theorems below stay inside `-2^63 < v < 2^63` where `v.natAbs` is
exactly the `u64` magnitude the Rust code computes.) -/
def put_signed (v : Int) : List Nat :=
  put_unsigned ((if v < 0 then 1 else 0) ||| ((v.natAbs <<< 1) % 2 ^ 64))

/-- `SliceSource` of `bipack_source.rs`: a borrowed byte slice plus a
cursor. -/
structure SliceSource where
  data : List Nat
  position : Nat
deriving DecidableEq, Repr

/-- Result of a decode operation: the Rust `Result` plus the state of the
`&mut self` source after the call (the cursor keeps any partial advance
even when an error is returned). -/
abbrev DecRes (α : Type) := Except BipackError α × SliceSource

instance {ε α : Type} [DecidableEq ε] [DecidableEq α] :
    DecidableEq (Except ε α) := fun a b =>
  match a, b with
  | .error e, .error f =>
    if h : e = f then .isTrue (by rw [h]) else .isFalse (by intro hc; cases hc; exact h rfl)
  | .ok x, .ok y =>
    if h : x = y then .isTrue (by rw [h]) else .isFalse (by intro hc; cases hc; exact h rfl)
  | .error _, .ok _ => .isFalse (by intro hc; cases hc)
  | .ok _, .error _ => .isFalse (by intro hc; cases hc)

/-- `SliceSource::get_u8`: fail with `NoDataError` at or past the end,
otherwise return the byte at the cursor and advance the cursor by one. -/
def get_u8 (s : SliceSource) : DecRes Nat :=
  if s.position ≥ s.data.length then (.error .NoDataError, s)
  else (.ok (s.data.getD s.position 0), ⟨s.data, s.position + 1⟩)

theorem get_u8_ok {s : SliceSource} {x : Nat} {t : SliceSource}
    (h : get_u8 s = (Except.ok x, t)) :
    s.position < s.data.length ∧ t.data = s.data ∧ t.position = s.position + 1 := by
  unfold get_u8 at h
  split at h
  · simp at h
  · rename_i hlt
    obtain ⟨h1, h2⟩ := Prod.mk.injEq .. |>.mp h
    subst h2
    exact ⟨by omega, rfl, rfl⟩

/-- `BipackSource::get_u16`: `((get_u8 as u16) << 8) + get_u8`. -/
def get_u16 (s : SliceSource) : DecRes Nat :=
  match get_u8 s with
  | (.error e, s) => (.error e, s)
  | (.ok a, s) =>
    match get_u8 s with
    | (.error e, s) => (.error e, s)
    | (.ok b, s) => (.ok ((a <<< 8) + b), s)

/-- `BipackSource::get_u32`: `((get_u16 as u32) << 16) + get_u16`. -/
def get_u32 (s : SliceSource) : DecRes Nat :=
  match get_u16 s with
  | (.error e, s) => (.error e, s)
  | (.ok a, s) =>
    match get_u16 s with
    | (.error e, s) => (.error e, s)
    | (.ok b, s) => (.ok ((a <<< 16) + b), s)

/-- `BipackSource::get_u64`: `((get_u32 as u64) << 32) | get_u32`. -/
def get_u64 (s : SliceSource) : DecRes Nat :=
  match get_u32 s with
  | (.error e, s) => (.error e, s)
  | (.ok a, s) =>
    match get_u32 s with
    | (.error e, s) => (.error e, s)
    | (.ok b, s) => (.ok ((a <<< 32) ||| b), s)

/-- The `loop` body of `BipackSource::get_varint_unsigned`, with the
accumulated `result` and the shift `count` made explicit.  The `u64`
accumulator wraps, hence `% 2 ^ 64`. -/
def get_varint_loop (s : SliceSource) (result count : Nat) : DecRes Nat :=
  match h : get_u8 s with
  | (.error e, s') => (.error e, s')
  | (.ok x, s') =>
    let result' := (result ||| ((x &&& 0x7F) <<< count)) % 2 ^ 64
    if x &&& 0x80 = 0 then (.ok result', s')
    else get_varint_loop s' result' (count + 7)
termination_by s.data.length - s.position
decreasing_by
  obtain ⟨h1, h2, h3⟩ := get_u8_ok h
  rw [h2, h3]
  omega

/-- `BipackSource::get_varint_unsigned`: the loop started with a zero
accumulator and shift. -/
def get_varint_unsigned (s : SliceSource) : DecRes Nat := get_varint_loop s 0 0

/-- `BipackSource::get_unsigned`: smartint decode.  The low 2 bits of the
first byte select the type; the mutable `ty -= 1; if ty == 0` steps of the
source appear as `ty - 1 = 0` and `ty - 2 = 0` tests. -/
def get_unsigned (s : SliceSource) : DecRes Nat :=
  match get_u8 s with
  | (.error e, s) => (.error e, s)
  | (.ok first, s) =>
    let ty := first &&& 3
    let result := first >>> 2
    if ty = 0 then (.ok result, s)
    else
      match get_u8 s with
      | (.error e, s) => (.error e, s)
      | (.ok b, s) =>
        let result := result + (b <<< 6)
        if ty - 1 = 0 then (.ok result, s)
        else
          match get_u8 s with
          | (.error e, s) => (.error e, s)
          | (.ok b2, s) =>
            let result := result + (b2 <<< 14)
            if ty - 2 = 0 then (.ok result, s)
            else
              match get_varint_unsigned s with
              | (.error e, s) => (.error e, s)
              | (.ok x, s) => (.ok (result ||| ((x <<< 22) % 2 ^ 64)), s)

/-- `BipackSource::get_fixed_bytes`: read exactly `size` bytes (the Rust
`for` loop pushing into a fresh vector; on the first failed read the error
propagates and no partial vector is returned). -/
def get_fixed_bytes (s : SliceSource) : Nat → DecRes (List Nat)
  | 0 => (.ok [], s)
  | n + 1 =>
    match get_u8 s with
    | (.error e, s) => (.error e, s)
    | (.ok b, s) =>
      match get_fixed_bytes s n with
      | (.error e, s) => (.error e, s)
      | (.ok bs, s) => (.ok (b :: bs), s)

/-- `BipackSource::var_bytes`: a smartint length prefix followed by that
many raw bytes. -/
def var_bytes (s : SliceSource) : DecRes (List Nat) :=
  match get_unsigned s with
  | (.error e, s) => (.error e, s)
  | (.ok size, s) => get_fixed_bytes s size

/-- UTF-8 validity of a byte sequence, as checked by Rust
`String::from_utf8`: ASCII, or a 2/3/4-byte sequence with the lead-byte
dependent range restriction on the first continuation byte (rejecting
overlong forms, surrogates and code points above `U+10FFFF`) and
`0x80..=0xBF` continuation bytes. -/
def validUtf8 : List Nat → Bool
  | [] => true
  | b :: rest =>
    if b < 0x80 then validUtf8 rest
    else if b < 0xC2 then false
    else if b ≤ 0xDF then
      match rest with
      | c1 :: rest' => 0x80 ≤ c1 && c1 ≤ 0xBF && validUtf8 rest'
      | [] => false
    else if b ≤ 0xEF then
      match rest with
      | c1 :: c2 :: rest' =>
        (if b = 0xE0 then 0xA0 ≤ c1 && c1 ≤ 0xBF
         else if b = 0xED then 0x80 ≤ c1 && c1 ≤ 0x9F
         else 0x80 ≤ c1 && c1 ≤ 0xBF) &&
        (0x80 ≤ c2 && c2 ≤ 0xBF) && validUtf8 rest'
      | _ => false
    else if b ≤ 0xF4 then
      match rest with
      | c1 :: c2 :: c3 :: rest' =>
        (if b = 0xF0 then 0x90 ≤ c1 && c1 ≤ 0xBF
         else if b = 0xF4 then 0x80 ≤ c1 && c1 ≤ 0x8F
         else 0x80 ≤ c1 && c1 ≤ 0xBF) &&
        (0x80 ≤ c2 && c2 ≤ 0xBF) && (0x80 ≤ c3 && c3 ≤ 0xBF) && validUtf8 rest'
      | _ => false
    else false

/-- `BipackSource::str`: `String::from_utf8(self.var_bytes()?)` mapping the
UTF-8 failure to `BadEncoding`.  The Rust `String` result is represented by
its UTF-8 byte sequence (exactly the validated bytes). -/
def str (s : SliceSource) : DecRes (List Nat) :=
  match var_bytes s with
  | (.error e, s) => (.error e, s)
  | (.ok bs, s) =>
    if validUtf8 bs then (.ok bs, s) else (.error (.BadEncoding bs), s)

/-- Modelled from the spec: `get_signed` is absent from `src/` (only the
repository's tests call it).  Spec section 4.2: "decode via `get_unsigned`,
then split: lowest bit is sign, remaining bits (shifted right by one) are
magnitude; negate if sign bit set". -/
def get_signed (s : SliceSource) : Except BipackError Int × SliceSource :=
  match get_unsigned s with
  | (.error e, s) => (.error e, s)
  | (.ok u, s) =>
    let mag : Int := (u >>> 1 : Nat)
    (.ok (if u &&& 1 = 1 then -mag else mag), s)

/-- `BipackSource::get_varint_unsigned` with an explicit iteration budget:
`none` means the budget was exhausted before the loop returned.  Used to
state that the loop terminates within `remaining + 1` iterations. -/
def get_varint_fuel : Nat → SliceSource → Nat → Nat → Option (DecRes Nat)
  | 0, _, _, _ => none
  | fuel + 1, s, result, count =>
    match get_u8 s with
    | (.error e, s') => some (.error e, s')
    | (.ok x, s') =>
      let result' := (result ||| ((x &&& 0x7F) <<< count)) % 2 ^ 64
      if x &&& 0x80 = 0 then some (.ok result', s')
      else get_varint_fuel fuel s' result' (count + 7)

/-- One decode operation of the source trait, for stating properties of
arbitrary operation sequences. -/
inductive Op where
  | u8 : Op
  | u16 : Op
  | u32 : Op
  | u64 : Op
  | unsigned : Op
  | varint : Op
  | fixed : Nat → Op
  | varBytes : Op
  | strOp : Op
  | signed : Op

/-- The source state after running one operation (the returned value, if
any, is discarded). -/
def runOp : Op → SliceSource → SliceSource
  | .u8, s => (get_u8 s).2
  | .u16, s => (get_u16 s).2
  | .u32, s => (get_u32 s).2
  | .u64, s => (get_u64 s).2
  | .unsigned, s => (get_unsigned s).2
  | .varint, s => (get_varint_unsigned s).2
  | .fixed n, s => (get_fixed_bytes s n).2
  | .varBytes, s => (var_bytes s).2
  | .strOp, s => (str s).2
  | .signed, s => (get_signed s).2

/-- The source state after a sequence of operations. -/
def runOps (ops : List Op) (s : SliceSource) : SliceSource :=
  ops.foldl (fun s op => runOp op s) s

/-! ### Arithmetic helper lemmas -/

theorem lor_shift {n : Nat} (a b : Nat) (h : a < 2 ^ n) :
    a ||| (b <<< n) = a + b * 2 ^ n := by
  apply Nat.eq_of_testBit_eq
  intro i
  rw [Nat.testBit_or, Nat.testBit_shiftLeft]
  have hcomm : a + b * 2 ^ n = 2 ^ n * b + a := by ring
  rw [hcomm, Nat.testBit_mul_pow_two_add _ h i]
  by_cases hi : i < n
  · have hge : ¬ i ≥ n := by omega
    simp [hi, hge]
  · have hni : n ≤ i := by omega
    have ha : a.testBit i = false :=
      Nat.testBit_lt_two_pow
        (lt_of_lt_of_le h (Nat.pow_le_pow_right (by norm_num) hni))
    simp [ha, hi, hni]

theorem and_mask (x n : Nat) : x &&& (2 ^ n - 1) = x % 2 ^ n :=
  Nat.and_pow_two_sub_one_eq_mod x n

theorem and_one (x : Nat) : x &&& 1 = x % 2 :=
  Nat.and_one_is_mod x

theorem and_three (x : Nat) : x &&& 3 = x % 4 := by
  have := and_mask x 2; norm_num at this; exact this

theorem and_63 (x : Nat) : x &&& 63 = x % 64 := by
  have := and_mask x 6; norm_num at this; exact this

theorem and_127 (x : Nat) : x &&& 127 = x % 128 := by
  have := and_mask x 7; norm_num at this; exact this

theorem and_255 (x : Nat) : x &&& 255 = x % 256 := by
  have := and_mask x 8; norm_num at this; exact this

theorem and_128_lt {x : Nat} (h : x < 128) : x &&& 128 = 0 := by
  have ht : x.testBit 7 = false := Nat.testBit_lt_two_pow (by norm_num; omega)
  have := Nat.and_two_pow x 7
  norm_num [ht] at this
  exact this

theorem and_128_ge {x : Nat} (h1 : 128 ≤ x) (h2 : x < 256) : x &&& 128 = 128 := by
  have ht : x.testBit 7 = true := by
    have : x >>> 7 = 1 := by
      rw [Nat.shiftRight_eq_div_pow]; norm_num; omega
    simp [Nat.testBit, this]
  have := Nat.and_two_pow x 7
  norm_num [ht] at this
  exact this

theorem first_byte_or {t c : Nat} (ht : t < 4) : t ||| (c <<< 2) = t + 4 * c := by
  have := lor_shift (n := 2) t c (by norm_num; omega)
  norm_num at this
  omega

theorem or_128 {a : Nat} (h : a < 128) : a ||| 128 = a + 128 := by
  have := lor_shift (n := 7) a 1 (by norm_num; omega)
  norm_num at this
  exact this

/-! ### The base-128 continuation encoding -/

theorem put_var_unsigned_small {x : Nat} (h : x < 128) :
    put_var_unsigned x = [x] := by
  rw [put_var_unsigned]
  rw [dif_neg (by rw [Nat.shiftRight_eq_div_pow]; norm_num; omega)]
  simp [put_u8, and_127]
  omega

theorem put_var_unsigned_large {x : Nat} (h : 128 ≤ x) :
    put_var_unsigned x = (x % 128 + 128) :: put_var_unsigned (x >>> 7) := by
  rw [put_var_unsigned]
  rw [dif_pos (by rw [Nat.shiftRight_eq_div_pow]; norm_num; omega)]
  simp [put_u8, and_127, or_128 (a := x % 128) (by omega)]
  omega

theorem put_var_unsigned_len_pow (x : Nat) :
    x < 128 ^ (put_var_unsigned x).length := by
  induction x using Nat.strong_induction_on with
  | _ x ih =>
    by_cases h : 128 ≤ x
    · rw [put_var_unsigned_large h]
      have hdiv : x >>> 7 = x / 128 := by
        rw [Nat.shiftRight_eq_div_pow]
      have hx7 : x >>> 7 < x := by omega
      have hih := ih _ hx7
      rw [hdiv] at hih ⊢
      simp only [List.length_cons]
      rw [pow_succ]
      omega
    · rw [put_var_unsigned_small (by omega)]
      simp
      omega

theorem put_var_unsigned_len_min (x : Nat) :
    ∀ M, x < 128 ^ M → 1 ≤ M → (put_var_unsigned x).length ≤ M := by
  induction x using Nat.strong_induction_on with
  | _ x ih =>
    intro M hM hM1
    by_cases h : 128 ≤ x
    · rw [put_var_unsigned_large h]
      have hx7 : x >>> 7 < x := by
        rw [Nat.shiftRight_eq_div_pow]; norm_num; omega
      have hM2 : 2 ≤ M := by
        by_contra hM2
        have : M = 1 := by omega
        subst this
        norm_num at hM
        omega
      have hdiv : x / 128 < 128 ^ (M - 1) := by
        have hpow : 128 ^ M = 128 ^ (M - 1) * 128 := by
          rw [← pow_succ]
          congr 1
          omega
        rw [hpow] at hM
        omega
      have hrec := ih _ hx7 (M - 1) (by rw [Nat.shiftRight_eq_div_pow]; norm_num; omega) (by omega)
      simp only [List.length_cons]
      omega
    · rw [put_var_unsigned_small (by omega)]
      simp
      omega

/-! ### Stepping lemma for the slice source -/

theorem get_u8_at {d : List Nat} {k b : Nat} {l : List Nat}
    (h : d.drop k = b :: l) :
    get_u8 ⟨d, k⟩ = (.ok b, ⟨d, k + 1⟩) ∧ d.drop (k + 1) = l := by
  have hk : k < d.length := by
    by_contra hk
    rw [List.drop_eq_nil_of_le (by omega)] at h
    exact List.noConfusion h
  have h1 : d[k]? = some b := by
    have := List.getElem?_drop d k 0
    rw [h] at this
    simpa using this.symm
  have h2 : d.drop (k + 1) = l := by
    have := List.drop_drop 1 k d
    rw [h] at this
    simpa using this.symm
  refine ⟨?_, h2⟩
  unfold get_u8
  simp only [List.getD_eq_getElem?_getD, h1]
  rw [if_neg (by simp; omega)]
  rfl

/-! ### Round trip of the continuation encoding -/

theorem get_varint_loop_spec (x : Nat) :
    ∀ (d : List Nat) (k : Nat) (rest : List Nat) (result count : Nat),
      d.drop k = put_var_unsigned x ++ rest →
      result < 2 ^ count →
      x < 2 ^ (64 - count) →
      count ≤ 64 →
      get_varint_loop ⟨d, k⟩ result count =
        (.ok (result + x * 2 ^ count), ⟨d, k + (put_var_unsigned x).length⟩) ∧
      d.drop (k + (put_var_unsigned x).length) = rest := by
  induction x using Nat.strong_induction_on with
  | _ x ih =>
    intro d k rest result count hdrop hres hx hcount
    by_cases hbig : 128 ≤ x
    · -- continuation byte, then the rest of the groups
      have hdiv : x >>> 7 = x / 128 := by rw [Nat.shiftRight_eq_div_pow]
      have hle : count + 7 ≤ 64 := by
        have h128 : (128 : Nat) ≤ 2 ^ (64 - count) := le_of_lt (lt_of_le_of_lt hbig hx)
        have : (2 : Nat) ^ 7 < 2 ^ (64 - count) ∨ (2 : Nat) ^ 7 = 2 ^ (64 - count) ∨ False := by
          norm_num
          omega
        rcases this with h | h | h
        · have := (Nat.pow_lt_pow_iff_right (by norm_num : 1 < 2)).mp h
          omega
        · by_contra hc
          have h764 : 64 - count < 7 := by omega
          have := Nat.pow_lt_pow_right (by norm_num : 1 < 2) h764
          omega
        · exact h.elim
      rw [put_var_unsigned_large hbig, List.cons_append] at hdrop
      obtain ⟨hga, hdrop'⟩ := get_u8_at hdrop
      rw [get_varint_loop]
      rw [hga]
      have hbyte_and : (x % 128 + 128) &&& 0x80 = 128 := and_128_ge (by omega) (by omega)
      simp only [hbyte_and]
      rw [if_neg (by norm_num)]
      have hbyte127 : (x % 128 + 128) &&& 0x7F = x % 128 := by
        rw [and_127]
        omega
      have hor : result ||| ((x % 128) <<< count) = result + (x % 128) * 2 ^ count :=
        lor_shift _ _ hres
      have hsum_lt : result + (x % 128) * 2 ^ count < 2 ^ (count + 7) := by
        have : result + (x % 128) * 2 ^ count < (1 + 127) * 2 ^ count + 1 * 2 ^ count - 2 ^ count := by
          have hmul : (x % 128) * 2 ^ count ≤ 127 * 2 ^ count :=
            Nat.mul_le_mul_right _ (by omega)
          have hp : 0 < 2 ^ count := Nat.pos_pow_of_pos _ (by norm_num)
          omega
        calc result + (x % 128) * 2 ^ count
            < 128 * 2 ^ count := by omega
          _ = 2 ^ (count + 7) := by rw [pow_add]; ring
      have hmask : (result + (x % 128) * 2 ^ count) % 2 ^ 64 =
          result + (x % 128) * 2 ^ count := by
        apply Nat.mod_eq_of_lt
        calc result + (x % 128) * 2 ^ count
            < 2 ^ (count + 7) := hsum_lt
          _ ≤ 2 ^ 64 := Nat.pow_le_pow_right (by norm_num) hle
      have hx7 : x >>> 7 < x := by omega
      have hx'bound : x >>> 7 < 2 ^ (64 - (count + 7)) := by
        rw [hdiv]
        have hsplit : (2 : Nat) ^ (64 - count) = 2 ^ (64 - (count + 7)) * 128 := by
          have : (64 - count) = (64 - (count + 7)) + 7 := by omega
          rw [this, pow_add]
          norm_num
        rw [hsplit] at hx
        omega
      have hrec := ih _ hx7 d (k + 1) rest
        (result + (x % 128) * 2 ^ count) (count + 7)
        hdrop' hsum_lt hx'bound hle
      simp only [hbyte127, hor, hmask]
      obtain ⟨hrec1, hrec2⟩ := hrec
      rw [hrec1]
      have hval : result + (x % 128) * 2 ^ count + (x >>> 7) * 2 ^ (count + 7) =
          result + x * 2 ^ count := by
        rw [hdiv, pow_add]
        have hxsplit : 128 * (x / 128) + x % 128 = x := Nat.div_add_mod x 128
        calc result + x % 128 * 2 ^ count + x / 128 * (2 ^ count * 2 ^ 7)
            = result + (128 * (x / 128) + x % 128) * 2 ^ count := by ring
          _ = result + x * 2 ^ count := by rw [hxsplit]
      have hlen : k + 1 + (put_var_unsigned (x >>> 7)).length =
          k + (put_var_unsigned x).length := by
        rw [put_var_unsigned_large hbig]
        simp only [List.length_cons]
        omega
      rw [hval, hlen]
      rw [hlen] at hrec2
      exact ⟨rfl, hrec2⟩
    · -- final byte: continuation bit clear
      have hsmall : x < 128 := by omega
      rw [put_var_unsigned_small hsmall, List.cons_append] at hdrop
      obtain ⟨hga, hdrop'⟩ := get_u8_at hdrop
      rw [get_varint_loop]
      rw [hga]
      have hb : x &&& 0x80 = 0 := and_128_lt hsmall
      simp only [hb, if_true]
      have hb127 : x &&& 0x7F = x := by rw [and_127]; omega
      have hor : result ||| (x <<< count) = result + x * 2 ^ count :=
        lor_shift _ _ hres
      have hmask : (result + x * 2 ^ count) % 2 ^ 64 = result + x * 2 ^ count := by
        apply Nat.mod_eq_of_lt
        calc result + x * 2 ^ count
            < (1 + x) * 2 ^ count := by
              have hp : 0 < 2 ^ count := Nat.pos_pow_of_pos _ (by norm_num)
              nlinarith
          _ ≤ 2 ^ (64 - count) * 2 ^ count := Nat.mul_le_mul_right _ (by omega)
          _ = 2 ^ 64 := by rw [← pow_add]; congr 1; omega
      simp only [hb127, hor, hmask]
      rw [put_var_unsigned_small hsmall]
      simp only [List.length_cons, List.length_nil]
      refine ⟨?_, by simpa using hdrop'⟩
      simp

/-! ### Explicit byte-level form of `put_unsigned` -/

theorem V0LIMIT_eq : V0LIMIT = 64 := rfl

theorem V1LIMIT_eq : V1LIMIT = 16384 := rfl

theorem V2LIMIT_eq : V2LIMIT = 4194304 := rfl

theorem encode_seq_cons (ty b0 : Nat) (rest : List Nat) (h : b0 ≤ 63) :
    encode_seq ty (b0 :: rest) =
      some (put_u8 ((ty &&& 0x03) ||| (((b0 % 256) <<< 2) % 256)) ++
            rest.map (fun b => b % 256)) := by
  show (if b0 > V0LIMIT then none else _) = _
  rw [if_neg (by rw [V0LIMIT_eq]; omega)]

theorem smart_first_byte (t c : Nat) (ht : t < 4) (hc : c ≤ 63) :
    put_u8 ((t &&& 0x03) ||| (((c % 256) <<< 2) % 256)) = [t + 4 * c] := by
  have h1 : c % 256 = c := by omega
  have h2 : (c <<< 2) % 256 = c <<< 2 := by
    apply Nat.mod_eq_of_lt
    rw [Nat.shiftLeft_eq]
    omega
  have h3 : t &&& 0x03 = t := by rw [and_three]; omega
  rw [h1, h2, h3, first_byte_or ht]
  unfold put_u8
  have : (t + 4 * c) % 256 = t + 4 * c := by omega
  rw [this]

theorem put_unsigned_checked_eq0 {v : Nat} (h : v < 64) :
    put_unsigned_checked v = some [4 * v] := by
  unfold put_unsigned_checked
  rw [if_pos (by rw [V0LIMIT_eq]; omega)]
  rw [encode_seq_cons 0 v [] (by omega)]
  have hv : v % 64 = v := by omega
  have := smart_first_byte 0 v (by omega) (by omega)
  simp only [this, List.map_nil, List.append_nil]
  norm_num

theorem put_unsigned_checked_eq1 {v : Nat} (h1 : 64 ≤ v) (h2 : v < 16384) :
    put_unsigned_checked v = some [1 + 4 * (v % 64), v / 64] := by
  unfold put_unsigned_checked
  rw [if_neg (by rw [V0LIMIT_eq]; omega), if_pos (by rw [V1LIMIT_eq]; omega)]
  rw [and_63]
  rw [encode_seq_cons 1 (v % 64) [v >>> 6] (by omega)]
  have := smart_first_byte 1 (v % 64) (by omega) (by omega)
  simp only [this, List.map_cons, List.map_nil]
  rw [Nat.shiftRight_eq_div_pow]
  norm_num
  omega

theorem put_unsigned_checked_eq2 {v : Nat} (h1 : 16384 ≤ v) (h2 : v < 4194304) :
    put_unsigned_checked v = some [2 + 4 * (v % 64), v / 64 % 256, v / 16384] := by
  unfold put_unsigned_checked
  rw [if_neg (by rw [V0LIMIT_eq]; omega), if_neg (by rw [V1LIMIT_eq]; omega),
     if_pos (by rw [V2LIMIT_eq]; omega)]
  rw [and_63]
  rw [encode_seq_cons 2 (v % 64) [v >>> 6, v >>> 14] (by omega)]
  have := smart_first_byte 2 (v % 64) (by omega) (by omega)
  simp only [this, List.map_cons, List.map_nil]
  simp only [Nat.shiftRight_eq_div_pow]
  norm_num
  omega

theorem put_unsigned_checked_eq3 {v : Nat} (h1 : 4194304 ≤ v) :
    put_unsigned_checked v =
      some ([3 + 4 * (v % 64), v / 64 % 256, v / 16384 % 256] ++
            put_var_unsigned (v >>> 22)) := by
  unfold put_unsigned_checked
  rw [if_neg (by rw [V0LIMIT_eq]; omega), if_neg (by rw [V1LIMIT_eq]; omega),
     if_neg (by rw [V2LIMIT_eq]; omega)]
  rw [and_63]
  rw [encode_seq_cons 3 (v % 64) [v >>> 6, v >>> 14] (by omega)]
  have := smart_first_byte 3 (v % 64) (by omega) (by omega)
  simp only [this, List.map_cons, List.map_nil]
  simp only [Nat.shiftRight_eq_div_pow]
  norm_num

/-- Claim C8: for every input value the internal panic guard of the
`encode_seq` helper inside `put_unsigned` is unreachable: in every branch
the first chunk is either the whole value (below 64) or the value masked
with `0x3F`, hence at most 63, so the checked encoder always returns the
byte sequence of the total encoder and never the panic marker `none`. -/
theorem C8_put_unsigned_no_panic (v : Nat) :
    put_unsigned_checked v = some (put_unsigned v) := by
  unfold put_unsigned
  by_cases h0 : v < 64
  · rw [put_unsigned_checked_eq0 h0]; rfl
  · by_cases h1 : v < 16384
    · rw [put_unsigned_checked_eq1 (by omega) h1]; rfl
    · by_cases h2 : v < 4194304
      · rw [put_unsigned_checked_eq2 (by omega) h2]; rfl
      · rw [put_unsigned_checked_eq3 (by omega)]; rfl

theorem put_unsigned_eq0 {v : Nat} (h : v < 64) :
    put_unsigned v = [4 * v] := by
  unfold put_unsigned
  rw [put_unsigned_checked_eq0 h]; rfl

theorem put_unsigned_eq1 {v : Nat} (h1 : 64 ≤ v) (h2 : v < 16384) :
    put_unsigned v = [1 + 4 * (v % 64), v / 64] := by
  unfold put_unsigned
  rw [put_unsigned_checked_eq1 h1 h2]; rfl

theorem put_unsigned_eq2 {v : Nat} (h1 : 16384 ≤ v) (h2 : v < 4194304) :
    put_unsigned v = [2 + 4 * (v % 64), v / 64 % 256, v / 16384] := by
  unfold put_unsigned
  rw [put_unsigned_checked_eq2 h1 h2]; rfl

theorem put_unsigned_eq3 {v : Nat} (h1 : 4194304 ≤ v) :
    put_unsigned v =
      [3 + 4 * (v % 64), v / 64 % 256, v / 16384 % 256] ++
        put_var_unsigned (v >>> 22) := by
  unfold put_unsigned
  rw [put_unsigned_checked_eq3 h1]; rfl

/-! ### Smartint decode on explicitly laid out bytes -/

theorem tag_and_three {t c : Nat} (ht : t < 4) : (t + 4 * c) &&& 3 = t := by
  rw [and_three]
  omega

theorem tag_shift_two (t c : Nat) (ht : t < 4) : (t + 4 * c) >>> 2 = c := by
  rw [Nat.shiftRight_eq_div_pow]
  norm_num
  omega

theorem get_unsigned_t0 (c : Nat) (rest : List Nat) :
    get_unsigned ⟨(4 * c) :: rest, 0⟩ = (.ok c, ⟨(4 * c) :: rest, 1⟩) := by
  have hga := (get_u8_at (d := (4 * c) :: rest) (k := 0)
    (b := 4 * c) (l := rest) rfl).1
  unfold get_unsigned
  rw [hga]
  have hty : (4 * c) &&& 3 = 0 := by
    have := tag_and_three (t := 0) (c := c) (by norm_num)
    simpa using this
  have hsh : (4 * c) >>> 2 = c := by
    have := tag_shift_two 0 c (by norm_num)
    simpa using this
  simp only [hty, hsh, if_true]

theorem get_unsigned_t1 (c b1 : Nat) (rest : List Nat) :
    get_unsigned ⟨(1 + 4 * c) :: b1 :: rest, 0⟩ =
      (.ok (c + b1 * 64), ⟨(1 + 4 * c) :: b1 :: rest, 2⟩) := by
  have hga := (get_u8_at (d := (1 + 4 * c) :: b1 :: rest) (k := 0)
    (b := 1 + 4 * c) (l := b1 :: rest) rfl).1
  have hgb := (get_u8_at (d := (1 + 4 * c) :: b1 :: rest) (k := 1)
    (b := b1) (l := rest) rfl).1
  unfold get_unsigned
  rw [hga]
  have hty : (1 + 4 * c) &&& 3 = 1 := tag_and_three (by norm_num)
  simp only [hty]
  rw [if_neg (by norm_num)]
  rw [hgb]
  have hsh : (1 + 4 * c) >>> 2 = c := tag_shift_two 1 c (by norm_num)
  have hb : b1 <<< 6 = b1 * 64 := by rw [Nat.shiftLeft_eq]
  simp only [if_true, hsh, hb]

theorem get_unsigned_t2 (c b1 b2 : Nat) (rest : List Nat) :
    get_unsigned ⟨(2 + 4 * c) :: b1 :: b2 :: rest, 0⟩ =
      (.ok (c + b1 * 64 + b2 * 16384), ⟨(2 + 4 * c) :: b1 :: b2 :: rest, 3⟩) := by
  have hga := (get_u8_at (d := (2 + 4 * c) :: b1 :: b2 :: rest) (k := 0)
    (b := 2 + 4 * c) (l := b1 :: b2 :: rest) rfl).1
  have hgb := (get_u8_at (d := (2 + 4 * c) :: b1 :: b2 :: rest) (k := 1)
    (b := b1) (l := b2 :: rest) rfl).1
  have hgc := (get_u8_at (d := (2 + 4 * c) :: b1 :: b2 :: rest) (k := 2)
    (b := b2) (l := rest) rfl).1
  unfold get_unsigned
  have hty : (2 + 4 * c) &&& 3 = 2 := tag_and_three (by norm_num)
  have hsh : (2 + 4 * c) >>> 2 = c := tag_shift_two 2 c (by norm_num)
  have hb : b1 <<< 6 = b1 * 64 := by rw [Nat.shiftLeft_eq]
  have hb2' : b2 <<< 14 = b2 * 16384 := by rw [Nat.shiftLeft_eq]
  simp only [hga, hty, hgb, hgc, hsh, hb, hb2', reduceIte]
  norm_num

theorem get_unsigned_t3 (c b1 b2 x : Nat) (hc : c < 64) (hb1 : b1 < 256)
    (hb2 : b2 < 256) (hx : x < 2 ^ 42) :
    get_unsigned ⟨(3 + 4 * c) :: b1 :: b2 :: put_var_unsigned x, 0⟩ =
      (.ok (c + b1 * 64 + b2 * 16384 + x * 4194304),
       ⟨(3 + 4 * c) :: b1 :: b2 :: put_var_unsigned x,
        3 + (put_var_unsigned x).length⟩) := by
  have hga := (get_u8_at (d := (3 + 4 * c) :: b1 :: b2 :: put_var_unsigned x) (k := 0)
    (b := 3 + 4 * c) (l := b1 :: b2 :: put_var_unsigned x) rfl).1
  have hgb := (get_u8_at (d := (3 + 4 * c) :: b1 :: b2 :: put_var_unsigned x) (k := 1)
    (b := b1) (l := b2 :: put_var_unsigned x) rfl).1
  have hgc := (get_u8_at (d := (3 + 4 * c) :: b1 :: b2 :: put_var_unsigned x) (k := 2)
    (b := b2) (l := put_var_unsigned x) rfl).1
  have hvar := (get_varint_loop_spec x
    ((3 + 4 * c) :: b1 :: b2 :: put_var_unsigned x) 3 [] 0 0
    (by simp) (by norm_num) (by norm_num; omega) (by norm_num)).1
  unfold get_unsigned
  have hty : (3 + 4 * c) &&& 3 = 3 := tag_and_three (by norm_num)
  have hsh : (3 + 4 * c) >>> 2 = c := tag_shift_two 3 c (by norm_num)
  have hb : b1 <<< 6 = b1 * 64 := by rw [Nat.shiftLeft_eq]
  have hb2' : b2 <<< 14 = b2 * 16384 := by rw [Nat.shiftLeft_eq]
  have hlow : c + b1 * 64 + b2 * 16384 < 2 ^ 22 := by norm_num; omega
  have hx22 : (x <<< 22) % 2 ^ 64 = x <<< 22 := by
    apply Nat.mod_eq_of_lt
    rw [Nat.shiftLeft_eq]
    calc x * 2 ^ 22 < 2 ^ 42 * 2 ^ 22 := (Nat.mul_lt_mul_right (by norm_num)).mpr hx
      _ ≤ 2 ^ 64 := by norm_num
  have hor : (c + b1 * 64 + b2 * 16384) ||| (x <<< 22) =
      c + b1 * 64 + b2 * 16384 + x * 2 ^ 22 := lor_shift _ _ hlow
  simp only [hga, hty, hgb, hgc, get_varint_unsigned, hvar, hsh, hb, hb2',
    reduceIte]
  norm_num
  simp only [Nat.reducePow] at hx22 hor
  rw [hx22, hor]

/-! ### Claim C1: smartint round trip -/

theorem put_unsigned_roundtrip (v : Nat) (h : v < 2 ^ 64) :
    get_unsigned ⟨put_unsigned v, 0⟩ =
      (.ok v, ⟨put_unsigned v, (put_unsigned v).length⟩) := by
  by_cases h0 : v < 64
  · rw [put_unsigned_eq0 h0]
    have ht := get_unsigned_t0 v []
    simpa using ht
  · by_cases h1 : v < 16384
    · rw [put_unsigned_eq1 (by omega) h1]
      have ht := get_unsigned_t1 (v % 64) (v / 64) []
      have hval : v % 64 + v / 64 * 64 = v := by omega
      rw [hval] at ht
      simpa using ht
    · by_cases h2 : v < 4194304
      · rw [put_unsigned_eq2 (by omega) h2]
        have ht := get_unsigned_t2 (v % 64) (v / 64 % 256) (v / 16384) []
        have hval : v % 64 + v / 64 % 256 * 64 + v / 16384 * 16384 = v := by omega
        rw [hval] at ht
        simpa using ht
      · rw [put_unsigned_eq3 (by omega)]
        have hx : v >>> 22 < 2 ^ 42 := by
          rw [Nat.shiftRight_eq_div_pow]
          norm_num
          omega
        have ht := get_unsigned_t3 (v % 64) (v / 64 % 256) (v / 16384 % 256)
          (v >>> 22) (by omega) (by omega) (by omega) hx
        have hdiv : v >>> 22 = v / 4194304 := by
          rw [Nat.shiftRight_eq_div_pow]
        rw [hdiv] at ht
        have hval : v % 64 + v / 64 % 256 * 64 + v / 16384 % 256 * 16384 +
            v / 4194304 * 4194304 = v := by omega
        rw [hval] at ht
        rw [← hdiv] at ht
        have hpos : 3 + (put_var_unsigned (v >>> 22)).length =
            (put_var_unsigned (v >>> 22)).length + 1 + 1 + 1 := by omega
        rw [hpos] at ht
        simpa using ht

/-- Claim C1: for every unsigned 64-bit value `v`, encoding `v` with
`put_unsigned` into an empty sink and decoding with `get_unsigned` from a
`SliceSource` over exactly those bytes succeeds, returns `v`, and consumes
all of the emitted bytes (the final cursor equals the buffer length). -/
theorem C1_put_unsigned_roundtrip (v : Nat) (h : v < 2 ^ 64) :
    get_unsigned ⟨put_unsigned v, 0⟩ =
      (.ok v, ⟨put_unsigned v, (put_unsigned v).length⟩) :=
  put_unsigned_roundtrip v h

theorem C1_witness : 931127140399 < 2 ^ 64 ∧
    get_unsigned ⟨put_unsigned 931127140399, 0⟩ =
      (.ok 931127140399,
       ⟨put_unsigned 931127140399, (put_unsigned 931127140399).length⟩) :=
  ⟨by norm_num, C1_put_unsigned_roundtrip 931127140399 (by norm_num)⟩

/-! ### Claim C2: canonical size selection -/

/-- Claim C2: `put_unsigned` emits exactly 1 byte for `v = 0..63`, exactly
2 bytes for `v = 64..16383`, exactly 3 bytes for `v = 16384..4194303`, and
exactly `3 + N` bytes for `v ≥ 4194304`, where `N` is the smallest number
of 7-bit base-128 groups that can hold `v >> 22`. -/
theorem C2_put_unsigned_length (v : Nat) :
    (v < 64 → (put_unsigned v).length = 1) ∧
    (64 ≤ v → v < 16384 → (put_unsigned v).length = 2) ∧
    (16384 ≤ v → v < 4194304 → (put_unsigned v).length = 3) ∧
    (4194304 ≤ v → ∃ N, (put_unsigned v).length = 3 + N ∧
      v >>> 22 < 128 ^ N ∧ ∀ M, v >>> 22 < 128 ^ M → N ≤ M) := by
  refine ⟨?_, ?_, ?_, ?_⟩
  · intro h
    rw [put_unsigned_eq0 h]
    rfl
  · intro h1 h2
    rw [put_unsigned_eq1 h1 h2]
    rfl
  · intro h1 h2
    rw [put_unsigned_eq2 h1 h2]
    rfl
  · intro h1
    rw [put_unsigned_eq3 h1]
    refine ⟨(put_var_unsigned (v >>> 22)).length, by simp; omega,
      put_var_unsigned_len_pow _, ?_⟩
    intro M hM
    have hx1 : 1 ≤ v >>> 22 := by
      rw [Nat.shiftRight_eq_div_pow]
      norm_num
      omega
    have hM1 : 1 ≤ M := by
      by_contra hc
      have : M = 0 := by omega
      subst this
      norm_num at hM
      omega
    exact put_var_unsigned_len_min _ M hM hM1

theorem C2_witness :
    (put_unsigned 63).length = 1 ∧ (put_unsigned 64).length = 2 ∧
    (put_unsigned 16384).length = 3 ∧
    (∃ N, (put_unsigned 4194304).length = 3 + N ∧
      (4194304 : Nat) >>> 22 < 128 ^ N ∧
      ∀ M, (4194304 : Nat) >>> 22 < 128 ^ M → N ≤ M) :=
  ⟨(C2_put_unsigned_length 63).1 (by norm_num),
   (C2_put_unsigned_length 64).2.1 (by norm_num) (by norm_num),
   (C2_put_unsigned_length 16384).2.2.1 (by norm_num) (by norm_num),
   (C2_put_unsigned_length 4194304).2.2.2 (by norm_num)⟩

/-! ### Claim C3: concrete wire vectors -/

/-- Claim C3: encoding the byte 7 with `put_u8`, then 64000 with `put_u16`,
66000 with `put_u32` and 931127140399 with `put_u64` yields exactly the
bytes `07 fa 00 00 01 01 d0 00 00 00 d8 cb 80 a0 2f`; encoding 7 with
`put_u8` and the same three values with `put_unsigned` yields exactly
`07 02 e8 03 42 07 04 bf 80 02 ae c6 0d`. -/
theorem C3_concrete_vectors :
    put_u8 7 ++ put_u16 64000 ++ put_u32 66000 ++ put_u64 931127140399 =
      [0x07, 0xfa, 0x00, 0x00, 0x01, 0x01, 0xd0, 0x00,
       0x00, 0x00, 0xd8, 0xcb, 0x80, 0xa0, 0x2f] ∧
    put_u8 7 ++ put_unsigned 64000 ++ put_unsigned 66000 ++
        put_unsigned 931127140399 =
      [0x07, 0x02, 0xe8, 0x03, 0x42, 0x07, 0x04, 0xbf, 0x80, 0x02,
       0xae, 0xc6, 0x0d] := by
  constructor
  · rfl
  · rw [put_unsigned_eq2 (by norm_num) (by norm_num),
        put_unsigned_eq2 (by norm_num) (by norm_num),
        put_unsigned_eq3 (by norm_num)]
    rw [put_var_unsigned_large (by decide)]
    rw [put_var_unsigned_large (by decide)]
    rw [put_var_unsigned_small (by decide)]
    decide

/-! ### Claim C4: signed round trip -/

/-- Claim C4: for `v` in the representable signed range, `put_signed v`
appends exactly the bytes of `put_unsigned ((|v| << 1) | s)` with `s = 1`
for negative `v` and `0` otherwise, and `get_signed` decodes them back to
`v`, consuming all bytes.  The hypotheses `-2^63 < v < 2^63` cover the
whole claimed range (approx. plus or minus `2^62`) including both
extremes. -/
theorem C4_put_signed_roundtrip (v : Int) (hlo : -(2 ^ 63) < v)
    (hhi : v < 2 ^ 63) :
    put_signed v =
      put_unsigned ((v.natAbs <<< 1) ||| (if v < 0 then 1 else 0)) ∧
    get_signed ⟨put_signed v, 0⟩ =
      (.ok v, ⟨put_signed v, (put_signed v).length⟩) := by
  have habs : v.natAbs < 2 ^ 63 := by omega
  have hmask : (v.natAbs <<< 1) % 2 ^ 64 = v.natAbs <<< 1 := by
    apply Nat.mod_eq_of_lt
    rw [Nat.shiftLeft_eq]
    norm_num
    omega
  have hs2 : (if v < 0 then (1 : Nat) else 0) < 2 := by split <;> norm_num
  have hor : (if v < 0 then (1 : Nat) else 0) ||| (v.natAbs <<< 1) =
      v.natAbs * 2 + (if v < 0 then 1 else 0) := by
    have hls := lor_shift (n := 1) (if v < 0 then (1 : Nat) else 0) v.natAbs
      (by norm_num; omega)
    rw [hls]
    norm_num
    omega
  have henc : put_signed v = put_unsigned (v.natAbs * 2 + (if v < 0 then 1 else 0)) := by
    unfold put_signed
    rw [hmask, hor]
  refine ⟨?_, ?_⟩
  · unfold put_signed
    rw [hmask, Nat.lor_comm]
  · rw [henc]
    have hu64 : v.natAbs * 2 + (if v < 0 then 1 else 0) < 2 ^ 64 := by
      norm_num
      omega
    have hrt := put_unsigned_roundtrip _ hu64
    unfold get_signed
    rw [hrt]
    have hand : (v.natAbs * 2 + (if v < 0 then 1 else 0)) &&& 1 =
        (if v < 0 then 1 else 0) := by
      rw [and_one]
      omega
    have hshr : (v.natAbs * 2 + (if v < 0 then 1 else 0)) >>> 1 = v.natAbs := by
      rw [Nat.shiftRight_eq_div_pow]
      norm_num
      omega
    simp only [hand, hshr]
    rcases lt_or_ge v 0 with hv | hv
    · simp only [if_pos hv]
      have hcast : -((v.natAbs : Int)) = v := by omega
      simp only [if_true, hcast]
    · simp only [if_neg (by omega : ¬ v < 0)]
      have hcast : ((v.natAbs : Int)) = v := by omega
      norm_num [hcast]

theorem C4_witness :
    (-(2 ^ 63) : Int) < -(2 ^ 62) ∧ (-(2 ^ 62) : Int) < 2 ^ 63 ∧
    (put_signed (-(2 ^ 62)) =
      put_unsigned (((-(2 ^ 62) : Int).natAbs <<< 1) |||
        (if (-(2 ^ 62) : Int) < 0 then 1 else 0)) ∧
     get_signed ⟨put_signed (-(2 ^ 62)), 0⟩ =
      (.ok (-(2 ^ 62)),
       ⟨put_signed (-(2 ^ 62)), (put_signed (-(2 ^ 62))).length⟩)) :=
  ⟨by norm_num, by norm_num,
   C4_put_signed_roundtrip (-(2 ^ 62)) (by norm_num) (by norm_num)⟩

/-! ### Claim C7: the decoder accepts non-minimal encodings -/

/-- Largest value count representable by each smartint type tag layout:
6 bits for type 0, 6+8 for type 1, 6+8+8 for type 2, and the full u64
range for type 3 (low 22 bits plus base-128 continuation). -/
def typeLimit : Nat → Nat
  | 0 => 2 ^ 6
  | 1 => 2 ^ 14
  | 2 => 2 ^ 22
  | _ => 2 ^ 64

/-- Following the spec text of section 4.3: the byte layout of a smartint
encoding with an explicitly chosen type tag `ty` in the low 2 bits of the
first byte — not necessarily the smallest tag that fits the value, so for
a small value and a large tag this describes a non-minimal encoding. -/
def encodeWithType : Nat → Nat → List Nat
  | 0, v => [v <<< 2]
  | 1, v => [1 ||| ((v &&& 63) <<< 2), (v >>> 6) &&& 255]
  | 2, v => [2 ||| ((v &&& 63) <<< 2), (v >>> 6) &&& 255, (v >>> 14) &&& 255]
  | 3, v => [3 ||| ((v &&& 63) <<< 2), (v >>> 6) &&& 255, (v >>> 14) &&& 255] ++
            put_var_unsigned (v >>> 22)
  | _ + 4, _ => []

/-- Claim C7: `get_unsigned` does not enforce minimality: for every type
tag whose layout can represent `v`, decoding the (possibly non-minimal)
bytes laid out with that tag succeeds, consumes them all, and returns the
same value `v` that the canonical encoding decodes to. -/
theorem C7_nonminimal_decode (ty v : Nat) (hty : ty ≤ 3)
    (hv : v < typeLimit ty) :
    get_unsigned ⟨encodeWithType ty v, 0⟩ =
      (.ok v, ⟨encodeWithType ty v, (encodeWithType ty v).length⟩) := by
  interval_cases ty
  · unfold typeLimit at hv
    norm_num at hv
    simp only [encodeWithType]
    have h4 : v <<< 2 = 4 * v := by rw [Nat.shiftLeft_eq]; ring
    rw [h4]
    have := get_unsigned_t0 v []
    simpa using this
  · unfold typeLimit at hv
    norm_num at hv
    simp only [encodeWithType]
    have hfb : 1 ||| ((v &&& 63) <<< 2) = 1 + 4 * (v % 64) := by
      rw [and_63, first_byte_or (by norm_num)]
    have hb1 : (v >>> 6) &&& 255 = v / 64 := by
      rw [and_255, Nat.shiftRight_eq_div_pow]
      norm_num
      omega
    rw [hfb, hb1]
    have ht := get_unsigned_t1 (v % 64) (v / 64) []
    have hval : v % 64 + v / 64 * 64 = v := by omega
    rw [hval] at ht
    simpa using ht
  · unfold typeLimit at hv
    norm_num at hv
    simp only [encodeWithType]
    have hfb : 2 ||| ((v &&& 63) <<< 2) = 2 + 4 * (v % 64) := by
      rw [and_63, first_byte_or (by norm_num)]
    have hb1 : (v >>> 6) &&& 255 = v / 64 % 256 := by
      rw [and_255, Nat.shiftRight_eq_div_pow]
    have hb2 : (v >>> 14) &&& 255 = v / 16384 := by
      rw [and_255, Nat.shiftRight_eq_div_pow]
      norm_num
      omega
    rw [hfb, hb1, hb2]
    have ht := get_unsigned_t2 (v % 64) (v / 64 % 256) (v / 16384) []
    have hval : v % 64 + v / 64 % 256 * 64 + v / 16384 * 16384 = v := by omega
    rw [hval] at ht
    simpa using ht
  · unfold typeLimit at hv
    norm_num at hv
    simp only [encodeWithType]
    have hfb : 3 ||| ((v &&& 63) <<< 2) = 3 + 4 * (v % 64) := by
      rw [and_63, first_byte_or (by norm_num)]
    have hb1 : (v >>> 6) &&& 255 = v / 64 % 256 := by
      rw [and_255, Nat.shiftRight_eq_div_pow]
    have hb2 : (v >>> 14) &&& 255 = v / 16384 % 256 := by
      rw [and_255, Nat.shiftRight_eq_div_pow]
    have hx : v >>> 22 < 2 ^ 42 := by
      rw [Nat.shiftRight_eq_div_pow]
      norm_num
      omega
    rw [hfb, hb1, hb2]
    have ht := get_unsigned_t3 (v % 64) (v / 64 % 256) (v / 16384 % 256)
      (v >>> 22) (by omega) (by omega) (by omega) hx
    have hdiv : v >>> 22 = v / 4194304 := by rw [Nat.shiftRight_eq_div_pow]
    rw [hdiv] at ht
    have hval : v % 64 + v / 64 % 256 * 64 + v / 16384 % 256 * 16384 +
        v / 4194304 * 4194304 = v := by omega
    rw [hval] at ht
    rw [← hdiv] at ht
    have hpos : 3 + (put_var_unsigned (v >>> 22)).length =
        (put_var_unsigned (v >>> 22)).length + 1 + 1 + 1 := by omega
    rw [hpos] at ht
    simpa using ht

theorem C7_witness : (1 : Nat) ≤ 3 ∧ (5 : Nat) < typeLimit 1 ∧
    get_unsigned ⟨encodeWithType 1 5, 0⟩ =
      (.ok 5, ⟨encodeWithType 1 5, (encodeWithType 1 5).length⟩) :=
  ⟨by norm_num, by decide, C7_nonminimal_decode 1 5 (by norm_num) (by decide)⟩

/-! ### Claim C6: invalid UTF-8 yields `BadEncoding`, not underrun -/

/-- Claim C6: when `str` reads its length prefix and payload bytes
successfully but the payload is not valid UTF-8, it returns the distinct
error kind `BadEncoding` carrying the offending bytes (modelling the Rust
`FromUtf8Error`), never the underrun error `NoDataError`; as a total Lean
function it cannot panic. -/
theorem C6_str_bad_encoding (s t : SliceSource) (bs : List Nat)
    (hvb : var_bytes s = (.ok bs, t)) (hbad : validUtf8 bs = false) :
    str s = (.error (.BadEncoding bs), t) ∧
    ∀ bs', BipackError.BadEncoding bs' ≠ BipackError.NoDataError := by
  constructor
  · unfold str
    rw [hvb]
    simp [hbad]
  · intro bs' hcontra
    exact BipackError.noConfusion hcontra

theorem C6_witness :
    var_bytes ⟨[4, 128], 0⟩ = (.ok [128], ⟨[4, 128], 2⟩) ∧
    validUtf8 [128] = false ∧
    (str ⟨[4, 128], 0⟩ = (.error (.BadEncoding [128]), ⟨[4, 128], 2⟩) ∧
     ∀ bs', BipackError.BadEncoding bs' ≠ BipackError.NoDataError) :=
  ⟨by decide, by decide,
   C6_str_bad_encoding ⟨[4, 128], 0⟩ ⟨[4, 128], 2⟩ [128] (by decide) (by decide)⟩

/-! ### State dichotomies for the decoders -/

theorem get_u8_err {s : SliceSource} (h : s.data.length ≤ s.position) :
    get_u8 s = (.error .NoDataError, s) := by
  unfold get_u8
  rw [if_pos (by omega)]

theorem get_u8_ok_lt {s : SliceSource} (h : s.position < s.data.length) :
    get_u8 s = (.ok (s.data.getD s.position 0), ⟨s.data, s.position + 1⟩) := by
  unfold get_u8
  rw [if_neg (by omega)]

theorem get_u8_spec (s : SliceSource) :
    (s.data.length < s.position + 1 ∧ get_u8 s = (.error .NoDataError, s)) ∨
    (∃ b, get_u8 s = (.ok b, ⟨s.data, s.position + 1⟩) ∧
      s.position + 1 ≤ s.data.length) := by
  by_cases h : s.position < s.data.length
  · exact .inr ⟨_, get_u8_ok_lt h, by omega⟩
  · exact .inl ⟨by omega, get_u8_err (by omega)⟩

theorem get_u16_spec (s : SliceSource) :
    (s.data.length < s.position + 2 ∧
     ∃ t, get_u16 s = (.error .NoDataError, t) ∧ t.data = s.data ∧
       s.position ≤ t.position ∧ t.position ≤ max s.position s.data.length) ∨
    (∃ b, get_u16 s = (.ok b, ⟨s.data, s.position + 2⟩) ∧
      s.position + 2 ≤ s.data.length) := by
  rcases get_u8_spec s with ⟨hlen, herr⟩ | ⟨b, hok, hle⟩
  · refine .inl ⟨by omega, s, ?_, rfl, le_refl _, le_max_left _ _⟩
    unfold get_u16
    simp only [herr]
  · rcases get_u8_spec ⟨s.data, s.position + 1⟩ with ⟨hlen2, herr2⟩ | ⟨b2, hok2, hle2⟩
    · simp only at hlen2
      refine .inl ⟨by omega, ⟨s.data, s.position + 1⟩, ?_, rfl, by simp,
        by simp; omega⟩
      unfold get_u16
      simp only [hok, herr2]
    · simp only at hle2
      refine .inr ⟨(b <<< 8) + b2, ?_, by omega⟩
      unfold get_u16
      simp only [hok, hok2]

theorem get_u32_spec (s : SliceSource) :
    (s.data.length < s.position + 4 ∧
     ∃ t, get_u32 s = (.error .NoDataError, t) ∧ t.data = s.data ∧
       s.position ≤ t.position ∧ t.position ≤ max s.position s.data.length) ∨
    (∃ b, get_u32 s = (.ok b, ⟨s.data, s.position + 4⟩) ∧
      s.position + 4 ≤ s.data.length) := by
  rcases get_u16_spec s with ⟨hlen, t, herr, htd, htp1, htp2⟩ | ⟨b, hok, hle⟩
  · refine .inl ⟨by omega, t, ?_, htd, htp1, htp2⟩
    unfold get_u32
    simp only [herr]
  · rcases get_u16_spec ⟨s.data, s.position + 2⟩ with
      ⟨hlen2, t, herr2, htd, htp1, htp2⟩ | ⟨b2, hok2, hle2⟩
    · simp only at hlen2 htd htp1 htp2
      refine .inl ⟨by omega, t, ?_, htd, by omega, by omega⟩
      unfold get_u32
      simp only [hok, herr2]
    · simp only at hle2
      refine .inr ⟨(b <<< 16) + b2, ?_, by omega⟩
      unfold get_u32
      simp only [hok, hok2]

theorem get_u64_spec (s : SliceSource) :
    (s.data.length < s.position + 8 ∧
     ∃ t, get_u64 s = (.error .NoDataError, t) ∧ t.data = s.data ∧
       s.position ≤ t.position ∧ t.position ≤ max s.position s.data.length) ∨
    (∃ b, get_u64 s = (.ok b, ⟨s.data, s.position + 8⟩) ∧
      s.position + 8 ≤ s.data.length) := by
  rcases get_u32_spec s with ⟨hlen, t, herr, htd, htp1, htp2⟩ | ⟨b, hok, hle⟩
  · refine .inl ⟨by omega, t, ?_, htd, htp1, htp2⟩
    unfold get_u64
    simp only [herr]
  · rcases get_u32_spec ⟨s.data, s.position + 4⟩ with
      ⟨hlen2, t, herr2, htd, htp1, htp2⟩ | ⟨b2, hok2, hle2⟩
    · simp only at hlen2 htd htp1 htp2
      refine .inl ⟨by omega, t, ?_, htd, by omega, by omega⟩
      unfold get_u64
      simp only [hok, herr2]
    · simp only at hle2
      refine .inr ⟨(b <<< 32) ||| b2, ?_, by omega⟩
      unfold get_u64
      simp only [hok, hok2]

theorem varint_loop_adv :
    ∀ (n : Nat) (s : SliceSource) (r c : Nat), s.data.length - s.position ≤ n →
    (get_varint_loop s r c).2.data = s.data ∧
    s.position ≤ (get_varint_loop s r c).2.position ∧
    (get_varint_loop s r c).2.position ≤ max s.position s.data.length ∧
    ∀ e, (get_varint_loop s r c).1 = .error e → e = .NoDataError := by
  intro n
  induction n with
  | zero =>
    intro s r c hn
    rw [get_varint_loop, get_u8_err (by omega)]
    refine ⟨by first | trivial | simp | omega, by first | trivial | omega | simp | (simp; omega), by first | trivial | omega | simp | (simp; omega), ?_⟩
    intro e he
    simp at he
    try exact he
    try exact he.symm
  | succ n ih =>
    intro s r c hn
    rcases get_u8_spec s with ⟨hlen, herr⟩ | ⟨b, hok, hle⟩
    · rw [get_varint_loop, herr]
      refine ⟨by first | trivial | simp | omega, by first | trivial | omega | simp | (simp; omega), by first | trivial | omega | simp | (simp; omega), ?_⟩
      intro e he
      simp at he
      try exact he
      try exact he.symm
    · rw [get_varint_loop, hok]
      by_cases hb : b &&& 0x80 = 0
      · simp only [hb, reduceIte]
        refine ⟨by first | trivial | simp | omega, by first | trivial | omega | simp | (simp; omega), by first | trivial | omega | simp | (simp; omega), ?_⟩
        intro e he
        simp at he
      · simp only [hb, reduceIte]
        have hrec := ih ⟨s.data, s.position + 1⟩
          ((r ||| ((b &&& 0x7F) <<< c)) % 2 ^ 64) (c + 7)
          (by show s.data.length - (s.position + 1) ≤ n; omega)
        simp only at hrec
        obtain ⟨h1, h2, h3, h4⟩ := hrec
        refine ⟨h1, by omega, by omega, h4⟩

theorem get_varint_unsigned_adv (s : SliceSource) :
    (get_varint_unsigned s).2.data = s.data ∧
    s.position ≤ (get_varint_unsigned s).2.position ∧
    (get_varint_unsigned s).2.position ≤ max s.position s.data.length ∧
    ∀ e, (get_varint_unsigned s).1 = .error e → e = .NoDataError :=
  varint_loop_adv (s.data.length - s.position) s 0 0 (le_refl _)

theorem get_unsigned_adv (s : SliceSource) :
    (get_unsigned s).2.data = s.data ∧ s.position ≤ (get_unsigned s).2.position ∧
    (get_unsigned s).2.position ≤ max s.position s.data.length ∧
    ∀ e, (get_unsigned s).1 = .error e → e = .NoDataError := by
  unfold get_unsigned
  rcases get_u8_spec s with ⟨hlen, herr⟩ | ⟨b, hok, hle⟩
  · simp only [herr]
    refine ⟨by first | trivial | simp | omega, by first | trivial | omega | simp | (simp; omega), by first | trivial | omega | simp | (simp; omega), ?_⟩
    intro e he
    simp at he
    try exact he
    try exact he.symm
  · simp only [hok]
    by_cases h0 : b &&& 3 = 0
    · simp only [h0, reduceIte]
      refine ⟨by first | trivial | simp | omega, by first | trivial | omega | simp | (simp; omega), by first | trivial | omega | simp | (simp; omega), ?_⟩
      intro e he
      simp at he
    · simp only [h0, reduceIte]
      rcases get_u8_spec ⟨s.data, s.position + 1⟩ with ⟨hlen2, herr2⟩ | ⟨b2, hok2, hle2⟩
      · simp only [herr2]
        refine ⟨by first | trivial | simp | omega, by first | trivial | omega | simp | (simp; omega), by first | trivial | omega | simp | (simp; omega), ?_⟩
        intro e he
        simp at he
        try exact he
        try exact he.symm
      · simp only [hok2]
        simp only at hle2
        by_cases h1 : (b &&& 3) - 1 = 0
        · simp only [h1, reduceIte]
          refine ⟨by first | trivial | simp | omega, by first | trivial | omega | simp | (simp; omega), by first | trivial | omega | simp | (simp; omega), ?_⟩
          intro e he
          simp at he
        · simp only [h1, reduceIte]
          rcases get_u8_spec ⟨s.data, s.position + 1 + 1⟩ with
            ⟨hlen3, herr3⟩ | ⟨b3, hok3, hle3⟩
          · simp only [herr3]
            refine ⟨by first | trivial | simp | omega, by first | trivial | omega | simp | (simp; omega), by first | trivial | omega | simp | (simp; omega), ?_⟩
            intro e he
            simp at he
            try exact he
            try exact he.symm
          · simp only [hok3]
            simp only at hle3
            by_cases h2 : (b &&& 3) - 2 = 0
            · simp only [h2, reduceIte]
              refine ⟨by first | trivial | simp | omega, by first | trivial | omega | simp | (simp; omega), by first | trivial | omega | simp | (simp; omega), ?_⟩
              intro e he
              simp at he
            · simp only [h2, reduceIte]
              have hv := get_varint_unsigned_adv ⟨s.data, s.position + 1 + 1 + 1⟩
              cases hvr : get_varint_unsigned ⟨s.data, s.position + 1 + 1 + 1⟩ with
              | mk rv sv =>
                rw [hvr] at hv
                simp only at hv
                obtain ⟨hv1, hv2, hv3, hv4⟩ := hv
                cases rv with
                | error e =>
                  refine ⟨by first | trivial | exact hv1 | simp [hv1], by first | omega | (simp; omega), by first | omega | (simp; omega), ?_⟩
                  intro e' he'
                  simp at he'
                  subst he'
                  exact hv4 e rfl
                | ok x =>
                  refine ⟨by first | trivial | exact hv1 | simp [hv1], by first | omega | (simp; omega), by first | omega | (simp; omega), ?_⟩
                  intro e' he'
                  simp at he'

theorem get_fixed_bytes_adv (n : Nat) :
    ∀ (s : SliceSource),
    (get_fixed_bytes s n).2.data = s.data ∧
    s.position ≤ (get_fixed_bytes s n).2.position ∧
    (get_fixed_bytes s n).2.position ≤ max s.position s.data.length ∧
    (∀ e, (get_fixed_bytes s n).1 = .error e → e = .NoDataError) ∧
    (s.data.length - s.position < n →
      (get_fixed_bytes s n).1 = .error .NoDataError) := by
  induction n with
  | zero =>
    intro s
    simp only [get_fixed_bytes]
    refine ⟨by first | trivial | simp, by first | trivial | omega | simp,
      by first | trivial | omega | simp, fun e he => by simp at he,
      fun h => by omega⟩
  | succ n ih =>
    intro s
    rcases get_u8_spec s with ⟨hlen, herr⟩ | ⟨b, hok, hle⟩
    · simp only [get_fixed_bytes, herr]
      refine ⟨by first | trivial | simp, by first | trivial | omega | simp,
        by first | trivial | omega | simp, ?_, fun h => ?_⟩
      · intro e he
        simp at he
        try exact he
        try exact he.symm
      · simp
    · simp only [get_fixed_bytes, hok]
      have hih := ih ⟨s.data, s.position + 1⟩
      simp only at hih
      cases hfb : get_fixed_bytes ⟨s.data, s.position + 1⟩ n with
      | mk r t =>
        rw [hfb] at hih
        simp only at hih
        obtain ⟨h1, h2, h3, h4, h5⟩ := hih
        cases r with
        | error e =>
          simp only [hfb]
          refine ⟨h1, by omega, by omega, ?_, fun h => ?_⟩
          · intro e' he'
            simp at he'
            subst he'
            exact h4 e rfl
          · have := h4 e rfl
            subst this
            simp
        | ok bs =>
          simp only [hfb]
          refine ⟨h1, by omega, by omega, ?_, fun h => ?_⟩
          · intro e' he'
            simp at he'
          · exfalso
            have hr := h5 (by omega)
            simp at hr

theorem var_bytes_adv (s : SliceSource) :
    (var_bytes s).2.data = s.data ∧ s.position ≤ (var_bytes s).2.position ∧
    (var_bytes s).2.position ≤ max s.position s.data.length ∧
    ∀ e, (var_bytes s).1 = .error e → e = .NoDataError := by
  unfold var_bytes
  have hu := get_unsigned_adv s
  cases hur : get_unsigned s with
  | mk r t =>
    rw [hur] at hu
    simp only at hu
    obtain ⟨h1, h2, h3, h4⟩ := hu
    cases r with
    | error e =>
      refine ⟨h1, h2, h3, ?_⟩
      intro e' he'
      simp at he'
      subst he'
      exact h4 e rfl
    | ok size =>
      have hf := get_fixed_bytes_adv size t
      obtain ⟨g1, g2, g3, g4, g5⟩ := hf
      refine ⟨?_, ?_, ?_, ?_⟩
      · show (get_fixed_bytes t size).2.data = s.data
        rw [g1, h1]
      · show s.position ≤ (get_fixed_bytes t size).2.position
        omega
      · show (get_fixed_bytes t size).2.position ≤ max s.position s.data.length
        rw [h1] at g3
        omega
      · show ∀ e, (get_fixed_bytes t size).1 = .error e → e = .NoDataError
        exact g4

theorem str_adv (s : SliceSource) :
    (str s).2.data = s.data ∧ s.position ≤ (str s).2.position ∧
    (str s).2.position ≤ max s.position s.data.length := by
  unfold str
  have hv := var_bytes_adv s
  cases hvr : var_bytes s with
  | mk r t =>
    rw [hvr] at hv
    simp only at hv
    obtain ⟨h1, h2, h3, h4⟩ := hv
    cases r with
    | error e => exact ⟨h1, h2, h3⟩
    | ok bs =>
      by_cases hu : validUtf8 bs
      · simp only [hu, reduceIte]
        exact ⟨h1, h2, h3⟩
      · simp only [hu, reduceIte]
        exact ⟨h1, h2, h3⟩

theorem get_signed_adv (s : SliceSource) :
    (get_signed s).2.data = s.data ∧ s.position ≤ (get_signed s).2.position ∧
    (get_signed s).2.position ≤ max s.position s.data.length ∧
    ∀ e, (get_signed s).1 = .error e → e = .NoDataError := by
  unfold get_signed
  have hu := get_unsigned_adv s
  cases hur : get_unsigned s with
  | mk r t =>
    rw [hur] at hu
    simp only at hu
    obtain ⟨h1, h2, h3, h4⟩ := hu
    cases r with
    | error e =>
      refine ⟨h1, h2, h3, ?_⟩
      intro e' he'
      simp at he'
      subst he'
      exact h4 e rfl
    | ok u =>
      refine ⟨h1, h2, h3, ?_⟩
      intro e' he'
      simp at he'

theorem runOp_adv (op : Op) (s : SliceSource) :
    (runOp op s).data = s.data ∧ s.position ≤ (runOp op s).position ∧
    (runOp op s).position ≤ max s.position s.data.length := by
  cases op with
  | u8 =>
    simp only [runOp]
    rcases get_u8_spec s with ⟨hlen, herr⟩ | ⟨b, hok, hle⟩
    · rw [herr]
      exact ⟨rfl, le_refl _, le_max_left _ _⟩
    · rw [hok]
      refine ⟨rfl, ?_, ?_⟩
      · show s.position ≤ s.position + 1
        omega
      · show s.position + 1 ≤ max s.position s.data.length
        omega
  | u16 =>
    simp only [runOp]
    rcases get_u16_spec s with ⟨hlen, t, herr, htd, htp1, htp2⟩ | ⟨b, hok, hle⟩
    · rw [herr]
      exact ⟨htd, htp1, htp2⟩
    · rw [hok]
      refine ⟨rfl, ?_, ?_⟩
      · show s.position ≤ s.position + 2
        omega
      · show s.position + 2 ≤ max s.position s.data.length
        omega
  | u32 =>
    simp only [runOp]
    rcases get_u32_spec s with ⟨hlen, t, herr, htd, htp1, htp2⟩ | ⟨b, hok, hle⟩
    · rw [herr]
      exact ⟨htd, htp1, htp2⟩
    · rw [hok]
      refine ⟨rfl, ?_, ?_⟩
      · show s.position ≤ s.position + 4
        omega
      · show s.position + 4 ≤ max s.position s.data.length
        omega
  | u64 =>
    simp only [runOp]
    rcases get_u64_spec s with ⟨hlen, t, herr, htd, htp1, htp2⟩ | ⟨b, hok, hle⟩
    · rw [herr]
      exact ⟨htd, htp1, htp2⟩
    · rw [hok]
      refine ⟨rfl, ?_, ?_⟩
      · show s.position ≤ s.position + 8
        omega
      · show s.position + 8 ≤ max s.position s.data.length
        omega
  | unsigned =>
    obtain ⟨h1, h2, h3, _⟩ := get_unsigned_adv s
    exact ⟨h1, h2, h3⟩
  | varint =>
    obtain ⟨h1, h2, h3, _⟩ := get_varint_unsigned_adv s
    exact ⟨h1, h2, h3⟩
  | fixed n =>
    obtain ⟨h1, h2, h3, _, _⟩ := get_fixed_bytes_adv n s
    exact ⟨h1, h2, h3⟩
  | varBytes =>
    obtain ⟨h1, h2, h3, _⟩ := var_bytes_adv s
    exact ⟨h1, h2, h3⟩
  | strOp =>
    exact str_adv s
  | signed =>
    obtain ⟨h1, h2, h3, _⟩ := get_signed_adv s
    exact ⟨h1, h2, h3⟩

/-! ### Claim C9: cursor invariants -/

/-- Claim C9: over every sequence of decode operations on a `SliceSource`
the cursor never decreases and (when it starts within bounds) never
exceeds the length of the underlying slice, and the underlying data is
never modified; moreover a failed `get_u8` leaves the source exactly as it
was and fails with `NoDataError`, so repeating the failed read against the
same bytes fails identically on every subsequent attempt. -/
theorem C9_cursor_invariants (ops : List Op) (s : SliceSource) :
    (runOps ops s).data = s.data ∧
    s.position ≤ (runOps ops s).position ∧
    (s.position ≤ s.data.length → (runOps ops s).position ≤ s.data.length) ∧
    (∀ e, (get_u8 s).1 = .error e → (get_u8 s).2 = s ∧ e = .NoDataError) := by
  have main : ∀ (ops : List Op) (u : SliceSource),
      (runOps ops u).data = u.data ∧ u.position ≤ (runOps ops u).position ∧
      (runOps ops u).position ≤ max u.position u.data.length := by
    intro ops
    induction ops with
    | nil =>
      intro u
      exact ⟨rfl, le_refl _, le_max_left _ _⟩
    | cons op ops ih =>
      intro u
      obtain ⟨a1, a2, a3⟩ := runOp_adv op u
      obtain ⟨b1, b2, b3⟩ := ih (runOp op u)
      refine ⟨?_, ?_, ?_⟩
      · show (runOps ops (runOp op u)).data = u.data
        rw [b1, a1]
      · show u.position ≤ (runOps ops (runOp op u)).position
        omega
      · show (runOps ops (runOp op u)).position ≤ max u.position u.data.length
        rw [a1] at b3
        omega
  obtain ⟨m1, m2, m3⟩ := main ops s
  refine ⟨m1, m2, fun hle => by omega, ?_⟩
  intro e he
  rcases get_u8_spec s with ⟨hlen, herr⟩ | ⟨b, hok, hle⟩
  · rw [herr] at he ⊢
    simp at he
    refine ⟨rfl, ?_⟩
    try exact he
    try exact he.symm
  · rw [hok] at he
    simp at he

theorem C9_witness :
    (runOps [Op.u8, Op.u16] ⟨[1, 2, 3], 0⟩).data = [1, 2, 3] ∧
    (0 : Nat) ≤ (runOps [Op.u8, Op.u16] ⟨[1, 2, 3], 0⟩).position ∧
    (runOps [Op.u8, Op.u16] ⟨[1, 2, 3], 0⟩).position ≤ 3 ∧
    ((get_u8 ⟨[], 0⟩).2 = ⟨[], 0⟩ ∧ BipackError.NoDataError = .NoDataError) :=
  ⟨(C9_cursor_invariants [Op.u8, Op.u16] ⟨[1, 2, 3], 0⟩).1,
   (C9_cursor_invariants [Op.u8, Op.u16] ⟨[1, 2, 3], 0⟩).2.1,
   (C9_cursor_invariants [Op.u8, Op.u16] ⟨[1, 2, 3], 0⟩).2.2.1 (by decide),
   (C9_cursor_invariants [] ⟨[], 0⟩).2.2.2 .NoDataError (by decide)⟩

/-! ### Claim C5: underrun always yields `NoDataError`, reads stay in bounds -/

/-- Claim C5: every decode operation that needs more bytes than remain
returns `NoDataError`: the fixed-width reads fail whenever fewer than
1/2/4/8 bytes remain, `get_fixed_bytes n` whenever fewer than `n` remain,
and the variable-length operations (`get_unsigned` with any missing
continuation byte, the varint loop, `var_bytes`, and the length/payload
phase of `str`) can only ever fail with `NoDataError`.  The final conjunct
expresses in-bounds access: `get_u8` only ever succeeds by reading the
byte at a cursor strictly inside the slice. -/
theorem C5_underrun (s : SliceSource) (r c n : Nat) :
    (s.data.length - s.position < 1 → get_u8 s = (.error .NoDataError, s)) ∧
    (s.data.length - s.position < 2 → (get_u16 s).1 = .error .NoDataError) ∧
    (s.data.length - s.position < 4 → (get_u32 s).1 = .error .NoDataError) ∧
    (s.data.length - s.position < 8 → (get_u64 s).1 = .error .NoDataError) ∧
    (s.data.length - s.position < n → (get_fixed_bytes s n).1 = .error .NoDataError) ∧
    (∀ e, (get_unsigned s).1 = .error e → e = .NoDataError) ∧
    (∀ e, (get_varint_loop s r c).1 = .error e → e = .NoDataError) ∧
    (∀ e, (var_bytes s).1 = .error e → e = .NoDataError) ∧
    (∀ e t, var_bytes s = (.error e, t) → str s = (.error .NoDataError, t)) ∧
    (∀ b t, get_u8 s = (.ok b, t) →
      s.position < s.data.length ∧ b = s.data.getD s.position 0) := by
  refine ⟨?_, ?_, ?_, ?_, ?_, ?_, ?_, ?_, ?_, ?_⟩
  · intro h
    exact get_u8_err (by omega)
  · intro h
    rcases get_u16_spec s with ⟨hlen, t, herr, _⟩ | ⟨b, hok, hle⟩
    · rw [herr]
    · omega
  · intro h
    rcases get_u32_spec s with ⟨hlen, t, herr, _⟩ | ⟨b, hok, hle⟩
    · rw [herr]
    · omega
  · intro h
    rcases get_u64_spec s with ⟨hlen, t, herr, _⟩ | ⟨b, hok, hle⟩
    · rw [herr]
    · omega
  · exact (get_fixed_bytes_adv n s).2.2.2.2
  · exact (get_unsigned_adv s).2.2.2
  · exact (varint_loop_adv (s.data.length - s.position) s r c (le_refl _)).2.2.2
  · exact (var_bytes_adv s).2.2.2
  · intro e t hvb
    have he : e = .NoDataError := (var_bytes_adv s).2.2.2 e (by rw [hvb])
    subst he
    unfold str
    rw [hvb]
  · intro b t h
    have hp : s.position < s.data.length := (get_u8_ok h).1
    refine ⟨hp, ?_⟩
    rw [get_u8_ok_lt hp] at h
    simp at h
    rw [List.getD_eq_getElem?_getD]
    exact h.1.symm

theorem C5_witness :
    get_u8 ⟨[], 0⟩ = (.error .NoDataError, ⟨[], 0⟩) ∧
    (get_u16 ⟨[], 0⟩).1 = .error .NoDataError ∧
    (get_u32 ⟨[], 0⟩).1 = .error .NoDataError ∧
    (get_u64 ⟨[], 0⟩).1 = .error .NoDataError ∧
    (get_fixed_bytes ⟨[], 0⟩ 1).1 = .error .NoDataError ∧
    BipackError.NoDataError = .NoDataError ∧
    BipackError.NoDataError = .NoDataError ∧
    BipackError.NoDataError = .NoDataError ∧
    str ⟨[], 0⟩ = (.error .NoDataError, ⟨[], 0⟩) ∧
    ((0 : Nat) < ([5] : List Nat).length ∧ (5 : Nat) = ([5] : List Nat).getD 0 0) :=
  ⟨(C5_underrun ⟨[], 0⟩ 0 0 1).1 (by decide),
   (C5_underrun ⟨[], 0⟩ 0 0 1).2.1 (by decide),
   (C5_underrun ⟨[], 0⟩ 0 0 1).2.2.1 (by decide),
   (C5_underrun ⟨[], 0⟩ 0 0 1).2.2.2.1 (by decide),
   (C5_underrun ⟨[], 0⟩ 0 0 1).2.2.2.2.1 (by decide),
   (C5_underrun ⟨[], 0⟩ 0 0 1).2.2.2.2.2.1 .NoDataError (by decide),
   (C5_underrun ⟨[], 0⟩ 0 0 1).2.2.2.2.2.2.1 .NoDataError
     (by rw [get_varint_loop, get_u8_err (by decide)]),
   (C5_underrun ⟨[], 0⟩ 0 0 1).2.2.2.2.2.2.2.1 .NoDataError (by decide),
   (C5_underrun ⟨[], 0⟩ 0 0 1).2.2.2.2.2.2.2.2.1 .NoDataError ⟨[], 0⟩ (by decide),
   (C5_underrun ⟨[5], 0⟩ 0 0 1).2.2.2.2.2.2.2.2.2 5 ⟨[5], 1⟩ (by decide)⟩

/-! ### Claim C10: the varint loop terminates within `remaining + 1` reads -/

theorem get_varint_fuel_stable :
    ∀ (fuel : Nat) (s : SliceSource) (result count : Nat),
      s.data.length - s.position + 1 ≤ fuel →
      get_varint_fuel fuel s result count =
        some (get_varint_loop s result count) := by
  intro fuel
  induction fuel with
  | zero =>
    intro s result count hfuel
    omega
  | succ fuel ih =>
    intro s result count hfuel
    rw [get_varint_loop]
    simp only [get_varint_fuel]
    rcases get_u8_spec s with ⟨hlen, herr⟩ | ⟨b, hok, hle⟩
    · rw [herr]
    · rw [hok]
      by_cases hb : b &&& 0x80 = 0
      · simp only [hb, reduceIte]
      · simp only [hb, reduceIte]
        exact ih ⟨s.data, s.position + 1⟩ _ _
          (by show s.data.length - (s.position + 1) + 1 ≤ fuel; omega)

/-- Claim C10: `get_varint_unsigned` terminates on every finite input:
each loop iteration consumes exactly one byte, so running the loop with an
iteration budget of `remaining + 1` (or more) already yields the loop's
final answer — `Ok` once a byte with the continuation bit clear is read,
or the underrun error `NoDataError` once the slice is exhausted — and the
loop (hence `get_unsigned`) is a total function. -/
theorem C10_varint_terminates (s : SliceSource) (result count fuel : Nat)
    (hfuel : s.data.length - s.position + 1 ≤ fuel) :
    get_varint_fuel fuel s result count =
      some (get_varint_loop s result count) ∧
    ((∃ v t, get_varint_loop s result count = (.ok v, t)) ∨
     (∃ t, get_varint_loop s result count = (.error .NoDataError, t))) := by
  refine ⟨get_varint_fuel_stable fuel s result count hfuel, ?_⟩
  have hadv := varint_loop_adv (s.data.length - s.position) s result count (le_refl _)
  cases hr : get_varint_loop s result count with
  | mk rv t =>
    cases rv with
    | ok v => exact .inl ⟨v, t, rfl⟩
    | error e =>
      rw [hr] at hadv
      have : e = .NoDataError := hadv.2.2.2 e rfl
      subst this
      exact .inr ⟨t, rfl⟩

theorem C10_witness :
    get_varint_fuel 3 ⟨[131, 1], 0⟩ 0 0 =
      some (get_varint_loop ⟨[131, 1], 0⟩ 0 0) ∧
    ((∃ v t, get_varint_loop ⟨[131, 1], 0⟩ 0 0 = (.ok v, t)) ∨
     (∃ t, get_varint_loop ⟨[131, 1], 0⟩ 0 0 = (.error .NoDataError, t))) :=
  C10_varint_terminates ⟨[131, 1], 0⟩ 0 0 3 (by decide)

end Bipack
